import Mathlib

/- Shallow embedding of the Airtable-to-Slack usergroup membership sync script
of this repository (the final variant in src/sync.js).  JavaScript values
flowing through the pipeline are modelled by the inductive type JVal; each
definition below mirrors the JavaScript function or loop of the same name,
including JavaScript truthiness checks and String() coercion semantics. -/

inductive JVal where
  | null
  | undef
  | bool (b : Bool)
  | num (n : Int)
  | str (s : String)
  | arr (xs : List JVal)
  | obj (fs : List (String × JVal))

mutual

/-- JavaScript String(v) coercion: null and undefined have their literal names,
arrays join their elements with commas (null and undefined elements becoming
the empty string), and plain objects print as "[object Object]". -/
def jsToString : JVal → String
  | JVal.null => "null"
  | JVal.undef => "undefined"
  | JVal.bool true => "true"
  | JVal.bool false => "false"
  | JVal.num n => toString n
  | JVal.str s => s
  | JVal.arr xs => String.intercalate "," (jsArrElems xs)
  | JVal.obj _ => "[object Object]"

/-- Element-wise stringification used by Array.prototype.join: null and
undefined elements become the empty string. -/
def jsArrElems : List JVal → List String
  | [] => []
  | JVal.null :: rest => "" :: jsArrElems rest
  | JVal.undef :: rest => "" :: jsArrElems rest
  | v :: rest => jsToString v :: jsArrElems rest

end

/-- Delimiter class of the split regex in the source: comma, semicolon, pipe,
newline. -/
def isDelimChar (c : Char) : Bool :=
  c = ',' || c = ';' || c = '|' || c = '\n'

/-- Whitespace characters stripped by String.prototype.trim. -/
def isWsChar (c : Char) : Bool :=
  c = ' ' || c = '\t' || c = '\n' || c = '\r' || c = '\x0b' || c = '\x0c'

/-- Character class [A-Z0-9] of the Slack id regex. -/
def isUpperAlnum (c : Char) : Bool :=
  ('A' ≤ c && c ≤ 'Z') || ('0' ≤ c && c ≤ '9')

def trimChars (cs : List Char) : List Char :=
  ((cs.dropWhile isWsChar).reverse.dropWhile isWsChar).reverse

/-- JavaScript s.trim(). -/
def jsTrim (s : String) : String := String.mk (trimChars s.data)

/-- JavaScript s.toLowerCase() (ASCII case fold suffices for this pipeline). -/
def jsToLower (s : String) : String := String.mk (s.data.map Char.toLower)

/-- JavaScript truthiness of a string: nonempty. -/
def jsTruthyStr (s : String) : Bool := !s.data.isEmpty

def charsBeginWith : List Char → List Char → Bool
  | _, [] => true
  | [], _ :: _ => false
  | c :: cs, p :: ps => c = p && charsBeginWith cs ps

/-- JavaScript s.startsWith(pat). -/
def beginsWith (s pat : String) : Bool := charsBeginWith s.data pat.data

/-- Core of the JavaScript Set-based dedup: keep the first occurrence of each
string, dropping later duplicates.  seen accumulates strings already kept. -/
def dedupFirstAux : List String → List String → List String
  | _, [] => []
  | seen, x :: rest =>
    if x ∈ seen then dedupFirstAux seen rest
    else x :: dedupFirstAux (x :: seen) rest

/-- Source function uniq: arr => [...new Set(arr.filter(Boolean))]. -/
def uniq (arr : List String) : List String :=
  dedupFirstAux [] (arr.filter jsTruthyStr)

/-- Greedy match of the regex [UW][A-Z0-9]{2,} anchored at the head of the
character list: the head must be U or W, followed by at least two characters
from [A-Z0-9]; the match extends maximally. -/
def matchIdAt : List Char → Option (List Char)
  | [] => none
  | c :: rest =>
    if c = 'U' || c = 'W' then
      if 2 ≤ (rest.takeWhile isUpperAlnum).length then
        some (c :: rest.takeWhile isUpperAlnum)
      else none
    else none

/-- Unanchored regex search for [UW][A-Z0-9]{2,}: first (leftmost) match,
greedy at the match position, as raw.match(...) behaves in the source. -/
def findIdMatch : List Char → Option (List Char)
  | [] => none
  | c :: rest =>
    match matchIdAt (c :: rest) with
    | some m => some m
    | none => findIdMatch rest

/-- Source function normalizeSlackId: null and undefined yield null; arrays
are joined with a space, any other value is String()-coerced; then the first
match of /([UW][A-Z0-9]{2,})/ is returned, or null when there is none.  The
non-array arms spell out the same String() coercion per constructor. -/
def normalizeSlackId (value : JVal) : Option String :=
  match value with
  | JVal.null => none
  | JVal.undef => none
  | JVal.arr xs => (findIdMatch (String.intercalate " " (jsArrElems xs)).data).map String.mk
  | JVal.bool b => (findIdMatch (jsToString (JVal.bool b)).data).map String.mk
  | JVal.num n => (findIdMatch (jsToString (JVal.num n)).data).map String.mk
  | JVal.str s => (findIdMatch (jsToString (JVal.str s)).data).map String.mk
  | JVal.obj fs => (findIdMatch (jsToString (JVal.obj fs)).data).map String.mk

/-- Source function normalizeName: null and undefined yield null; otherwise
String(value).trim().toLowerCase(). -/
def normalizeName : JVal → Option String
  | JVal.null => none
  | JVal.undef => none
  | v => some (jsToLower (jsTrim (jsToString v)))

mutual

/-- Piece collector for s.split(/[,;\x7c\n]+/g): characters are accumulated in
cur (reversed) until a delimiter starts a run. -/
def splitRunsGo (cur : List Char) : List Char → List (List Char)
  | [] => [cur.reverse]
  | c :: rest =>
    if isDelimChar c then cur.reverse :: splitRunsSkip rest
    else splitRunsGo (c :: cur) rest

/-- Skips the remainder of a delimiter run; a run at the end of the string
contributes one trailing empty piece, exactly as the JavaScript split does. -/
def splitRunsSkip : List Char → List (List Char)
  | [] => [[]]
  | c :: rest =>
    if isDelimChar c then splitRunsSkip rest
    else splitRunsGo [c] rest

end

/-- Source helper pushString: an empty (falsy) string contributes nothing;
otherwise split on runs of commas, semicolons, pipes and newlines, trim each
piece, and drop pieces that are empty after trimming. -/
def splitTokens (s : String) : List String :=
  if s.data.isEmpty then []
  else ((splitRunsGo [] s.data).map (fun cs => jsTrim (String.mk cs))).filter jsTruthyStr

/-- JavaScript property read item[k] restricted to string values: some s when
the property exists and is a string, none otherwise. -/
def lookupStr (fs : List (String × JVal)) (k : String) : Option String :=
  match fs.lookup k with
  | some (JVal.str s) => some s
  | _ => none

/-- The source's loop over candidate keys: first key whose value is a string. -/
def firstStrKey (fs : List (String × JVal)) : List String → Option String
  | [] => none
  | k :: ks =>
    match lookupStr fs k with
    | some s => some s
    | none => firstStrKey fs ks

/-- The object branch's record-reference probe: item.id when it is a string
starting with "rec". -/
def objRecId (fs : List (String × JVal)) : Option String :=
  match lookupStr fs "id" with
  | some i => if beginsWith i "rec" then some i else none
  | none => none

/-- The object branch's name probe: item.name when it is a string, else the
first string among item.Name, item.name, item.value, item.label. -/
def objNameStr (fs : List (String × JVal)) : Option String :=
  match lookupStr fs "name" with
  | some s => some s
  | none => firstStrKey fs ["Name", "name", "value", "label"]

/-- Source helper handleItem.  A nested array has typeof "object" and none of
the probed string properties, so the source's object branch returns without
pushing anything for it; the String() fallback is reached only by primitive
non-string values. -/
def handleItem : JVal → List String
  | JVal.null => []
  | JVal.undef => []
  | JVal.str s => splitTokens s
  | JVal.arr _ => []
  | JVal.obj fs =>
    match objRecId fs with
    | some i => [i]
    | none =>
      match objNameStr fs with
      | some s => splitTokens s
      | none => []
  | v => splitTokens (jsToString v)

/-- Source function explodeHubCoordinators: null and undefined yield no
tokens, an array is visited element by element, any other value is handled as
a single item. -/
def explodeHubCoordinators : JVal → List String
  | JVal.null => []
  | JVal.undef => []
  | JVal.arr items => (items.map handleItem).flatten
  | v => handleItem v

/-- One row of the Coordinators table, as returned by the Airtable list call:
an opaque record id plus a fields object. -/
structure CoordRecord where
  id : String
  fields : List (String × JVal)

/-- The two lookup maps built by main over the Coordinators table, plus the
counter of records whose Slack id field did not normalize. -/
structure CoordIndex where
  byRecordId : String → Option String
  byName : String → Option String
  invalidSlackIdCount : Nat

/-- JavaScript fields?.[k]: the property value, or undefined when absent. -/
def getField (fs : List (String × JVal)) (k : String) : JVal :=
  match fs.lookup k with
  | some v => v
  | none => JVal.undef

def emptyIndex : CoordIndex :=
  { byRecordId := fun _ => none, byName := fun _ => none, invalidSlackIdCount := 0 }

/-- Body of the source's "for (const c of coordinators)" index-building loop:
a record whose Slack id does not normalize only bumps the invalid counter;
otherwise its record id is registered, and its normalized name too when that
name is truthy (nonempty).  Assignment into a JavaScript object overwrites,
hence the function update. -/
def buildIndexStep (acc : CoordIndex) (c : CoordRecord) : CoordIndex :=
  match normalizeSlackId (getField c.fields "Slack ID") with
  | none =>
    { byRecordId := acc.byRecordId, byName := acc.byName,
      invalidSlackIdCount := acc.invalidSlackIdCount + 1 }
  | some slackId =>
    let byRec : String → Option String :=
      fun q => if q = c.id then some slackId else acc.byRecordId q
    match normalizeName (getField c.fields "Name") with
    | some name =>
      if jsTruthyStr name then
        { byRecordId := byRec,
          byName := fun q => if q = name then some slackId else acc.byName q,
          invalidSlackIdCount := acc.invalidSlackIdCount }
      else
        { byRecordId := byRec, byName := acc.byName,
          invalidSlackIdCount := acc.invalidSlackIdCount }
    | none =>
      { byRecordId := byRec, byName := acc.byName,
        invalidSlackIdCount := acc.invalidSlackIdCount }

/-- The index-building loop of main, over the records in input order. -/
def buildIndex (records : List CoordRecord) : CoordIndex :=
  records.foldl buildIndexStep emptyIndex

/-- The per-token resolver inside main's hub loop: a falsy (empty) token
resolves to null, a token starting with "rec" is looked up by record id, any
other token is name-normalized and looked up by name. -/
def resolveToken (idx : CoordIndex) (t : String) : Option String :=
  if !jsTruthyStr t then none
  else if beginsWith t "rec" then idx.byRecordId t
  else
    match normalizeName (JVal.str t) with
    | some n => idx.byName n
    | none => none

/-- JavaScript .filter(Boolean) on a list of string-or-null values: drops
null, undefined and empty strings. -/
def jsFilterTruthy (xs : List (Option String)) : List String :=
  xs.filterMap (fun o =>
    match o with
    | some s => if jsTruthyStr s then some s else none
    | none => none)

/-- The slackUserIds computation of main for one hub: explode the raw
coordinators field, resolve each token, drop falsy results, dedup keeping
first occurrences. -/
def resolveMembership (idx : CoordIndex) (raw : JVal) : List String :=
  uniq (jsFilterTruthy ((explodeHubCoordinators raw).map (resolveToken idx)))

/-- One row of the Hubs table. -/
structure Hub where
  id : String
  fields : List (String × JVal)

/-- JavaScript falsiness of a field value, as tested by "if (!groupId)". -/
def isFalsy : JVal → Bool
  | JVal.null => true
  | JVal.undef => true
  | JVal.bool b => !b
  | JVal.num n => n == 0
  | JVal.str s => s.data.isEmpty
  | JVal.arr _ => false
  | JVal.obj _ => false

/-- Terminal state of one hub in the orchestrator loop. -/
inductive HubOutcome where
  | updated
  | skippedNoGroupId
  | skippedEmptyMembership
  | failed
  deriving DecidableEq

/-- Pure description of one iteration of main's hub loop, given the outcome
function of the external Slack call: the terminal state of the hub together
with the update calls issued for it (each call carries the group id and the
full resolved member list). -/
def processHub (idx : CoordIndex) (ok : JVal → List String → Bool) (h : Hub) :
    HubOutcome × List (JVal × List String) :=
  let groupId := getField h.fields "Group ID"
  if isFalsy groupId then (HubOutcome.skippedNoGroupId, [])
  else
    let ids := resolveMembership idx (getField h.fields "Coordinators")
    if ids.length = 0 then (HubOutcome.skippedEmptyMembership, [])
    else if ok groupId ids then (HubOutcome.updated, [(groupId, ids)])
    else (HubOutcome.failed, [(groupId, ids)])

/-- The external Slack call slackCall("usergroups.users.update", ...): throws
(error) when the call does not succeed. -/
def slackCall (ok : JVal → List String → Bool) (g : JVal) (ids : List String) :
    Except String Unit :=
  if ok g ids then Except.ok () else Except.error "usergroups.users.update failed"

/-- Faithful translation of one iteration of main's hub loop: the thrown
error of a failed Slack call is caught by the try/catch, which logs and
continues, so the iteration itself never propagates an error. -/
def hubStep (idx : CoordIndex) (ok : JVal → List String → Bool) (h : Hub) :
    Except String (HubOutcome × List (JVal × List String)) :=
  let groupId := getField h.fields "Group ID"
  if isFalsy groupId then Except.ok (HubOutcome.skippedNoGroupId, [])
  else
    let ids := resolveMembership idx (getField h.fields "Coordinators")
    if ids.length = 0 then Except.ok (HubOutcome.skippedEmptyMembership, [])
    else
      match slackCall ok groupId ids with
      | Except.ok _ => Except.ok (HubOutcome.updated, [(groupId, ids)])
      | Except.error _ => Except.ok (HubOutcome.failed, [(groupId, ids)])

/-- Main's hub loop: hubs processed one at a time in table order; an error
propagating out of an iteration would abort the remaining hubs, exactly as an
uncaught exception would in the source. -/
def runHubs (idx : CoordIndex) (ok : JVal → List String → Bool) :
    List Hub → Except String (List HubOutcome × List (JVal × List String))
  | [] => Except.ok ([], [])
  | h :: rest =>
    match hubStep idx ok h with
    | Except.error e => Except.error e
    | Except.ok oc =>
      match runHubs idx ok rest with
      | Except.error e => Except.error e
      | Except.ok oscs => Except.ok (oc.1 :: oscs.1, oc.2 ++ oscs.2)

/-- The Slack user id shape [UW][A-Z0-9]{2,}, matched in full. -/
def validId (s : String) : Bool :=
  match s.data with
  | [] => false
  | c :: rest => (c = 'U' || c = 'W') && decide (2 ≤ rest.length) && rest.all isUpperAlnum

/-- Index of the first list element satisfying p (length of the list when
there is none); used to speak about the position of the first token that
resolves to a given user id. -/
def firstIdxP (p : String → Bool) : List String → Nat
  | [] => 0
  | x :: rest => if p x then 0 else firstIdxP p rest + 1

/-- Index of the first occurrence of u in l. -/
def firstOccIdx (u : String) (l : List String) : Nat :=
  firstIdxP (fun x => decide (x = u)) l

/-- Pairwise transfer along a relation implication that may use membership. -/
theorem pairwiseImpMem {α : Type} {R S : α → α → Prop} :
    ∀ {l : List α}, (∀ u v, u ∈ l → v ∈ l → R u v → S u v) → l.Pairwise R → l.Pairwise S := by
  intro l
  induction l with
  | nil => intro _ _; exact List.Pairwise.nil
  | cons x rest ih =>
    intro h hp
    rcases List.pairwise_cons.mp hp with ⟨hx, hrest⟩
    refine List.pairwise_cons.mpr ⟨?_, ?_⟩
    · intro v hv
      exact h x v (List.mem_cons_self x rest) (List.mem_cons_of_mem _ hv) (hx v hv)
    · exact ih (fun u v hu hv => h u v (List.mem_cons_of_mem _ hu) (List.mem_cons_of_mem _ hv)) hrest

/-- Membership in the first-occurrence dedup: an element survives iff it is in
the input and was not already seen. -/
theorem mem_dedupFirstAux :
    ∀ (l seen : List String) (u : String),
      u ∈ dedupFirstAux seen l ↔ (u ∈ l ∧ u ∉ seen) := by
  intro l
  induction l with
  | nil => intro seen u; simp [dedupFirstAux]
  | cons x rest ih =>
    intro seen u
    by_cases hx : x ∈ seen
    · rw [dedupFirstAux, if_pos hx, ih seen u]
      constructor
      · rintro ⟨hu, hs⟩
        exact ⟨List.mem_cons_of_mem _ hu, hs⟩
      · rintro ⟨hu, hs⟩
        rcases List.mem_cons.mp hu with h | h
        · exact absurd (h ▸ hx) hs
        · exact ⟨h, hs⟩
    · rw [dedupFirstAux, if_neg hx]
      rw [List.mem_cons, List.mem_cons, ih (x :: seen) u]
      constructor
      · rintro (h | ⟨hu, hs⟩)
        · exact ⟨Or.inl h, h ▸ hx⟩
        · refine ⟨Or.inr hu, fun hseen => hs (List.mem_cons_of_mem _ hseen)⟩
      · rintro ⟨h | h, hs⟩
        · exact Or.inl h
        · by_cases hux : u = x
          · exact Or.inl hux
          · refine Or.inr ⟨h, fun hc => ?_⟩
            rcases List.mem_cons.mp hc with h1 | h2
            · exact hux h1
            · exact hs h2

/-- The first-occurrence dedup never repeats an element. -/
theorem nodup_dedupFirstAux :
    ∀ (l seen : List String), (dedupFirstAux seen l).Nodup := by
  intro l
  induction l with
  | nil => intro seen; simp [dedupFirstAux]
  | cons x rest ih =>
    intro seen
    by_cases hx : x ∈ seen
    · rw [dedupFirstAux, if_pos hx]; exact ih seen
    · rw [dedupFirstAux, if_neg hx]
      refine List.nodup_cons.mpr ⟨?_, ih (x :: seen)⟩
      intro hmem
      rcases (mem_dedupFirstAux rest (x :: seen) x).mp hmem with ⟨_, hns⟩
      exact hns (List.mem_cons_self x seen)

theorem firstOccIdx_cons_self (x : String) (l : List String) :
    firstOccIdx x (x :: l) = 0 := by
  simp [firstOccIdx, firstIdxP]

theorem firstOccIdx_cons_ne (x u : String) (l : List String) (h : ¬x = u) :
    firstOccIdx u (x :: l) = firstOccIdx u l + 1 := by
  simp [firstOccIdx, firstIdxP, h]

/-- Elements of the first-occurrence dedup are ordered by the index of their
first occurrence in the input list. -/
theorem pairwise_dedupFirstAux :
    ∀ (l seen : List String),
      (dedupFirstAux seen l).Pairwise (fun u v => firstOccIdx u l < firstOccIdx v l) := by
  intro l
  induction l with
  | nil => intro seen; simp [dedupFirstAux]
  | cons x rest ih =>
    intro seen
    by_cases hx : x ∈ seen
    · rw [dedupFirstAux, if_pos hx]
      refine pairwiseImpMem ?_ (ih seen)
      intro u v hu hv hlt
      have hu2 := (mem_dedupFirstAux rest seen u).mp hu
      have hv2 := (mem_dedupFirstAux rest seen v).mp hv
      have hux : ¬x = u := fun he => hu2.2 (he ▸ hx)
      have hvx : ¬x = v := fun he => hv2.2 (he ▸ hx)
      rw [firstOccIdx_cons_ne x u rest hux, firstOccIdx_cons_ne x v rest hvx]
      omega
    · rw [dedupFirstAux, if_neg hx]
      refine List.pairwise_cons.mpr ⟨?_, ?_⟩
      · intro v hv
        have hv2 := (mem_dedupFirstAux rest (x :: seen) v).mp hv
        have hvx : ¬x = v := fun he => hv2.2 (he ▸ List.mem_cons_self x seen)
        rw [firstOccIdx_cons_self, firstOccIdx_cons_ne x v rest hvx]
        omega
      · refine pairwiseImpMem ?_ (ih (x :: seen))
        intro u v hu hv hlt
        have hu2 := (mem_dedupFirstAux rest (x :: seen) u).mp hu
        have hv2 := (mem_dedupFirstAux rest (x :: seen) v).mp hv
        have hux : ¬x = u := fun he => hu2.2 (he ▸ List.mem_cons_self x seen)
        have hvx : ¬x = v := fun he => hv2.2 (he ▸ List.mem_cons_self x seen)
        rw [firstOccIdx_cons_ne x u rest hux, firstOccIdx_cons_ne x v rest hvx]
        omega

/-- A successful regex search returns a nonempty match. -/
theorem findIdMatch_ne_nil :
    ∀ (cs : List Char) (m : List Char), findIdMatch cs = some m → m ≠ [] := by
  intro cs
  induction cs with
  | nil => intro m h; simp [findIdMatch] at h
  | cons c rest ih =>
    intro m h
    rw [findIdMatch] at h
    cases hm : matchIdAt (c :: rest) with
    | some k =>
      rw [hm] at h
      cases h
      rw [matchIdAt] at hm
      split at hm
      · split at hm
        · cases hm
          simp
        · cases hm
      · cases hm
    | none =>
      rw [hm] at h
      exact ih m h

/-- A normalized Slack id is a truthy (nonempty) string. -/
theorem normalizeSlackId_truthy :
    ∀ (v : JVal) (u : String), normalizeSlackId v = some u → jsTruthyStr u = true := by
  have key : ∀ (cs : List Char) (u : String),
      (findIdMatch cs).map String.mk = some u → jsTruthyStr u = true := by
    intro cs u h
    rcases Option.map_eq_some'.mp h with ⟨m, hm, hmk⟩
    have hne := findIdMatch_ne_nil cs m hm
    cases m with
    | nil => exact absurd rfl hne
    | cons c t =>
      rw [← hmk]
      simp [jsTruthyStr]
  intro v u h
  cases v with
  | null => simp [normalizeSlackId] at h
  | undef => simp [normalizeSlackId] at h
  | bool b => rw [normalizeSlackId] at h; exact key _ u h
  | num n => rw [normalizeSlackId] at h; exact key _ u h
  | str s => rw [normalizeSlackId] at h; exact key _ u h
  | arr xs => rw [normalizeSlackId] at h; exact key _ u h
  | obj fs => rw [normalizeSlackId] at h; exact key _ u h

/-- Both maps of a coordinator index hold only truthy (nonempty) user ids. -/
def idxValuesTruthy (acc : CoordIndex) : Prop :=
  (∀ k u, acc.byRecordId k = some u → jsTruthyStr u = true) ∧
  (∀ k u, acc.byName k = some u → jsTruthyStr u = true)

theorem updTruthy (m : String → Option String) (key val : String)
    (hm : ∀ k u, m k = some u → jsTruthyStr u = true) (hv : jsTruthyStr val = true) :
    ∀ k u, (if k = key then some val else m k) = some u → jsTruthyStr u = true := by
  intro k u h
  by_cases hk : k = key
  · rw [if_pos hk] at h
    cases h
    exact hv
  · rw [if_neg hk] at h
    exact hm k u h

theorem buildIndexStep_truthy (acc : CoordIndex) (c : CoordRecord)
    (h : idxValuesTruthy acc) : idxValuesTruthy (buildIndexStep acc c) := by
  cases hs : normalizeSlackId (getField c.fields "Slack ID") with
  | none => simp only [buildIndexStep, hs]; exact h
  | some slackId =>
    have hts := normalizeSlackId_truthy _ _ hs
    cases hn : normalizeName (getField c.fields "Name") with
    | none =>
      simp only [buildIndexStep, hs, hn]
      exact ⟨updTruthy acc.byRecordId c.id slackId h.1 hts, h.2⟩
    | some name =>
      by_cases htr : jsTruthyStr name = true
      · simp only [buildIndexStep, hs, hn, if_pos htr]
        exact ⟨updTruthy acc.byRecordId c.id slackId h.1 hts,
               updTruthy acc.byName name slackId h.2 hts⟩
      · simp only [buildIndexStep, hs, hn, if_neg htr]
        exact ⟨updTruthy acc.byRecordId c.id slackId h.1 hts, h.2⟩

theorem buildIndex_truthy (records : List CoordRecord) :
    idxValuesTruthy (buildIndex records) := by
  have aux : ∀ (recs : List CoordRecord) (acc : CoordIndex), idxValuesTruthy acc →
      idxValuesTruthy (recs.foldl buildIndexStep acc) := by
    intro recs
    induction recs with
    | nil => intro acc h; exact h
    | cons c rest ih =>
      intro acc h
      exact ih (buildIndexStep acc c) (buildIndexStep_truthy acc c h)
  refine aux records emptyIndex ⟨?_, ?_⟩ <;> intro k u h <;> simp [emptyIndex] at h

/-- Tokens only ever resolve to truthy ids stored in the index maps. -/
theorem resolveToken_truthy (idx : CoordIndex) (h : idxValuesTruthy idx) (t u : String)
    (ht : resolveToken idx t = some u) : jsTruthyStr u = true := by
  unfold resolveToken at ht
  split at ht
  · simp at ht
  · split at ht
    · exact h.1 t u ht
    · simp only [normalizeName] at ht
      exact h.2 _ u ht

/-- A resolved id is a stored value of one of the two index maps. -/
theorem resolveToken_is_lookup (idx : CoordIndex) (t u : String)
    (h : resolveToken idx t = some u) :
    (∃ k, idx.byRecordId k = some u) ∨ (∃ k, idx.byName k = some u) := by
  unfold resolveToken at h
  split at h
  · simp at h
  · split at h
    · exact Or.inl ⟨t, h⟩
    · simp only [normalizeName] at h
      exact Or.inr ⟨_, h⟩

theorem jsFilterTruthy_map_eq_filterMap (g : String → Option String) (l : List String)
    (h : ∀ t u, g t = some u → jsTruthyStr u = true) :
    jsFilterTruthy (l.map g) = l.filterMap g := by
  induction l with
  | nil => rfl
  | cons t rest ih =>
    cases hg : g t with
    | none =>
      have e : jsFilterTruthy (List.map g (t :: rest)) = jsFilterTruthy (List.map g rest) := by
        simp [jsFilterTruthy, hg]
      rw [e, List.filterMap_cons_none hg]
      exact ih
    | some u =>
      have htr := h t u hg
      have e : jsFilterTruthy (List.map g (t :: rest)) = u :: jsFilterTruthy (List.map g rest) := by
        simp [jsFilterTruthy, hg, htr]
      rw [e, List.filterMap_cons_some hg, ih]

/-- Under an index with truthy values, the membership pipeline is the
first-occurrence dedup of the token-wise resolution. -/
theorem resolveMembership_eq (idx : CoordIndex) (h : idxValuesTruthy idx) (raw : JVal) :
    resolveMembership idx raw =
      dedupFirstAux [] ((explodeHubCoordinators raw).filterMap (resolveToken idx)) := by
  unfold resolveMembership uniq
  rw [jsFilterTruthy_map_eq_filterMap (resolveToken idx) _
        (fun t u ht => resolveToken_truthy idx h t u ht)]
  congr 1
  refine List.filter_eq_self.mpr ?_
  intro a ha
  rcases List.mem_filterMap.mp ha with ⟨t, _, hgt⟩
  exact resolveToken_truthy idx h t a hgt

/-- Relative order of first occurrences in a filterMap image matches the
relative order of the first preimage positions in the token list. -/
theorem firstOccIdx_filterMap_lt_iff (g : String → Option String) :
    ∀ (tokens : List String) (u v : String),
      u ∈ tokens.filterMap g → v ∈ tokens.filterMap g →
      (firstOccIdx u (tokens.filterMap g) < firstOccIdx v (tokens.filterMap g) ↔
       firstIdxP (fun x => decide (g x = some u)) tokens <
       firstIdxP (fun x => decide (g x = some v)) tokens) := by
  intro tokens
  induction tokens with
  | nil =>
    intro u v hu hv
    simp at hu
  | cons t rest ih =>
    intro u v hu hv
    cases hg : g t with
    | none =>
      rw [List.filterMap_cons_none hg] at hu hv
      rw [List.filterMap_cons_none hg]
      have h1 : firstIdxP (fun x => decide (g x = some u)) (t :: rest)
          = firstIdxP (fun x => decide (g x = some u)) rest + 1 := by
        simp [firstIdxP, hg]
      have h2 : firstIdxP (fun x => decide (g x = some v)) (t :: rest)
          = firstIdxP (fun x => decide (g x = some v)) rest + 1 := by
        simp [firstIdxP, hg]
      rw [h1, h2]
      have hiv := ih u v hu hv
      omega
    | some w =>
      rw [List.filterMap_cons_some hg] at hu hv
      rw [List.filterMap_cons_some hg]
      by_cases huw : w = u
      · by_cases hvw : w = v
        · subst huw
          subst hvw
          have e1 : firstOccIdx w (w :: rest.filterMap g) = 0 := firstOccIdx_cons_self _ _
          have e2 : firstIdxP (fun x => decide (g x = some w)) (t :: rest) = 0 := by
            simp [firstIdxP, hg]
          rw [e1, e2]
        · subst huw
          have e1 : firstOccIdx w (w :: rest.filterMap g) = 0 := firstOccIdx_cons_self _ _
          have e2 : firstOccIdx v (w :: rest.filterMap g) = firstOccIdx v (rest.filterMap g) + 1 :=
            firstOccIdx_cons_ne _ _ _ hvw
          have e3 : firstIdxP (fun x => decide (g x = some w)) (t :: rest) = 0 := by
            simp [firstIdxP, hg]
          have e4 : firstIdxP (fun x => decide (g x = some v)) (t :: rest)
              = firstIdxP (fun x => decide (g x = some v)) rest + 1 := by
            simp [firstIdxP, hg, hvw]
          rw [e1, e2, e3, e4]
          omega
      · by_cases hvw : w = v
        · subst hvw
          have e1 : firstOccIdx u (w :: rest.filterMap g) = firstOccIdx u (rest.filterMap g) + 1 :=
            firstOccIdx_cons_ne _ _ _ huw
          have e2 : firstOccIdx w (w :: rest.filterMap g) = 0 := firstOccIdx_cons_self _ _
          have e3 : firstIdxP (fun x => decide (g x = some u)) (t :: rest)
              = firstIdxP (fun x => decide (g x = some u)) rest + 1 := by
            simp [firstIdxP, hg, huw]
          have e4 : firstIdxP (fun x => decide (g x = some w)) (t :: rest) = 0 := by
            simp [firstIdxP, hg]
          rw [e1, e2, e3, e4]
          omega
        · have hu2 : u ∈ rest.filterMap g := by
            rcases List.mem_cons.mp hu with h | h
            · exact absurd h.symm huw
            · exact h
          have hv2 : v ∈ rest.filterMap g := by
            rcases List.mem_cons.mp hv with h | h
            · exact absurd h.symm hvw
            · exact h
          have e1 : firstOccIdx u (w :: rest.filterMap g) = firstOccIdx u (rest.filterMap g) + 1 :=
            firstOccIdx_cons_ne _ _ _ huw
          have e2 : firstOccIdx v (w :: rest.filterMap g) = firstOccIdx v (rest.filterMap g) + 1 :=
            firstOccIdx_cons_ne _ _ _ hvw
          have e3 : firstIdxP (fun x => decide (g x = some u)) (t :: rest)
              = firstIdxP (fun x => decide (g x = some u)) rest + 1 := by
            simp [firstIdxP, hg, huw]
          have e4 : firstIdxP (fun x => decide (g x = some v)) (t :: rest)
              = firstIdxP (fun x => decide (g x = some v)) rest + 1 := by
            simp [firstIdxP, hg, hvw]
          rw [e1, e2, e3, e4]
          have hiv := ih u v hu2 hv2
          omega

/-- The regex search skips any leading region that contains no U and no W,
since every match must start with one of those letters. -/
theorem findIdMatch_append_skip :
    ∀ (pre : List Char), (∀ c ∈ pre, c ≠ 'U' ∧ c ≠ 'W') →
      ∀ tail, findIdMatch (pre ++ tail) = findIdMatch tail := by
  intro pre
  induction pre with
  | nil => intro _ tail; rfl
  | cons c rest ih =>
    intro h tail
    have hc := h c (List.mem_cons_self c rest)
    rw [List.cons_append, findIdMatch]
    have hm : matchIdAt (c :: (rest ++ tail)) = none := by
      simp [matchIdAt, hc.1, hc.2]
    rw [hm]
    exact ih (fun c2 hc2 => h c2 (List.mem_cons_of_mem _ hc2)) tail

/-- takeWhile over an append whose first part fully satisfies the predicate
and whose second part starts with a failing character. -/
theorem takeWhile_append_of_all (p : Char → Bool) :
    ∀ (xs ys : List Char), xs.all p = true →
      (∀ c, ys.head? = some c → p c = false) →
      (xs ++ ys).takeWhile p = xs := by
  intro xs
  induction xs with
  | nil =>
    intro ys _ hy
    cases ys with
    | nil => rfl
    | cons d ds =>
      have hd := hy d rfl
      simp [List.takeWhile_cons, hd]
  | cons x xs2 ih =>
    intro ys hall hy
    have hx : p x = true := List.all_eq_true.mp hall x (List.mem_cons_self x xs2)
    have hall2 : xs2.all p = true :=
      List.all_eq_true.mpr (fun c hc => List.all_eq_true.mp hall c (List.mem_cons_of_mem _ hc))
    rw [List.cons_append, List.takeWhile_cons, hx]
    rw [ih ys hall2 hy]
    simp

/-- One loop iteration never propagates an error and yields exactly the pure
per-hub description, because the try/catch absorbs the Slack call failure. -/
theorem hubStep_eq_processHub (idx : CoordIndex) (ok : JVal → List String → Bool) (h : Hub) :
    hubStep idx ok h = Except.ok (processHub idx ok h) := by
  simp only [hubStep, processHub, slackCall]
  by_cases h1 : isFalsy (getField h.fields "Group ID") = true
  · simp [h1]
  · by_cases h2 : (resolveMembership idx (getField h.fields "Coordinators")).length = 0
    · simp [h1, h2]
    · by_cases h3 : ok (getField h.fields "Group ID")
          (resolveMembership idx (getField h.fields "Coordinators")) = true
      · simp [h1, h2, h3]
      · simp [h1, h2, h3]

/-- The hub loop always terminates in success, with one outcome per hub in
order and the concatenation of the per-hub call lists. -/
theorem runHubs_eq (idx : CoordIndex) (ok : JVal → List String → Bool) :
    ∀ hubs : List Hub,
      runHubs idx ok hubs =
        Except.ok (hubs.map (fun h => (processHub idx ok h).1),
                   (hubs.map (fun h => (processHub idx ok h).2)).flatten) := by
  intro hubs
  induction hubs with
  | nil => rfl
  | cons h rest ih =>
    rw [runHubs, hubStep_eq_processHub, ih]
    rfl

/-- Build-loop invariant for the name-to-record value inclusion: as long as
upcoming record ids are fresh, a value reachable through the name map stays
reachable through the record-id map. -/
theorem buildIndexAux_name_sub :
    ∀ (recs : List CoordRecord) (acc : CoordIndex),
      (∀ n u, acc.byName n = some u → ∃ k, acc.byRecordId k = some u) →
      (∀ c ∈ recs, acc.byRecordId c.id = none) →
      (recs.map CoordRecord.id).Nodup →
      ∀ n u, (recs.foldl buildIndexStep acc).byName n = some u →
        ∃ k, (recs.foldl buildIndexStep acc).byRecordId k = some u := by
  intro recs
  induction recs with
  | nil => intro acc hsub _ _ n u h; exact hsub n u h
  | cons c rest ih =>
    intro acc hsub hfresh hnodup n u h
    rw [List.foldl_cons] at h
    rw [List.foldl_cons]
    have hfreshc : acc.byRecordId c.id = none := hfresh c (List.mem_cons_self c rest)
    have hsub2 : ∀ n u, (buildIndexStep acc c).byName n = some u →
        ∃ k, (buildIndexStep acc c).byRecordId k = some u := by
      cases hs : normalizeSlackId (getField c.fields "Slack ID") with
      | none =>
        intro n2 u2 hn2
        simp only [buildIndexStep, hs] at hn2 ⊢
        exact hsub n2 u2 hn2
      | some slackId =>
        cases hnm : normalizeName (getField c.fields "Name") with
        | none =>
          intro n2 u2 hn2
          simp only [buildIndexStep, hs, hnm] at hn2 ⊢
          rcases hsub n2 u2 hn2 with ⟨k, hk⟩
          refine ⟨k, ?_⟩
          by_cases hkc : k = c.id
          · rw [hkc] at hk
            rw [hfreshc] at hk
            cases hk
          · rw [if_neg hkc]
            exact hk
        | some name =>
          by_cases htr : jsTruthyStr name = true
          · intro n2 u2 hn2
            simp only [buildIndexStep, hs, hnm, if_pos htr] at hn2 ⊢
            by_cases hnn : n2 = name
            · rw [if_pos hnn] at hn2
              cases hn2
              exact ⟨c.id, by rw [if_pos rfl]⟩
            · rw [if_neg hnn] at hn2
              rcases hsub n2 u2 hn2 with ⟨k, hk⟩
              refine ⟨k, ?_⟩
              by_cases hkc : k = c.id
              · rw [hkc] at hk
                rw [hfreshc] at hk
                cases hk
              · rw [if_neg hkc]
                exact hk
          · intro n2 u2 hn2
            simp only [buildIndexStep, hs, hnm, if_neg htr] at hn2 ⊢
            rcases hsub n2 u2 hn2 with ⟨k, hk⟩
            refine ⟨k, ?_⟩
            by_cases hkc : k = c.id
            · rw [hkc] at hk
              rw [hfreshc] at hk
              cases hk
            · rw [if_neg hkc]
              exact hk
    have hnodup2 : (rest.map CoordRecord.id).Nodup := by
      rw [List.map_cons] at hnodup
      exact (List.nodup_cons.mp hnodup).2
    have hfresh2 : ∀ c2 ∈ rest, (buildIndexStep acc c).byRecordId c2.id = none := by
      intro c2 hc2
      have hne : ¬c2.id = c.id := by
        intro he
        have hmem : c.id ∈ rest.map CoordRecord.id := List.mem_map.mpr ⟨c2, hc2, he⟩
        rw [List.map_cons] at hnodup
        exact (List.nodup_cons.mp hnodup).1 hmem
      have hf := hfresh c2 (List.mem_cons_of_mem _ hc2)
      cases hs : normalizeSlackId (getField c.fields "Slack ID") with
      | none =>
        simp only [buildIndexStep, hs]
        exact hf
      | some slackId =>
        cases hnm : normalizeName (getField c.fields "Name") with
        | none =>
          simp only [buildIndexStep, hs, hnm]
          rw [if_neg hne]
          exact hf
        | some name =>
          by_cases htr : jsTruthyStr name = true
          · simp only [buildIndexStep, hs, hnm, if_pos htr]
            rw [if_neg hne]
            exact hf
          · simp only [buildIndexStep, hs, hnm, if_neg htr]
            rw [if_neg hne]
            exact hf
    exact ih (buildIndexStep acc c) hsub2 hfresh2 hnodup2 n u h

/-- C1: for every coordinator index built from a record list and every hub
coordinators field, an external user id is in the resolved membership iff some
exploded token resolves to it; the membership has no duplicates; its entries
are ordered by the position of the first token that resolved to them; and
every member is a value stored in one of the two coordinator index maps. -/
theorem C1_resolved_membership_invariant (records : List CoordRecord) (raw : JVal) :
    (∀ u, u ∈ resolveMembership (buildIndex records) raw ↔
       ∃ t ∈ explodeHubCoordinators raw, resolveToken (buildIndex records) t = some u) ∧
    (resolveMembership (buildIndex records) raw).Nodup ∧
    (resolveMembership (buildIndex records) raw).Pairwise (fun u v =>
       firstIdxP (fun t => decide (resolveToken (buildIndex records) t = some u))
         (explodeHubCoordinators raw) <
       firstIdxP (fun t => decide (resolveToken (buildIndex records) t = some v))
         (explodeHubCoordinators raw)) ∧
    (∀ u, u ∈ resolveMembership (buildIndex records) raw →
       (∃ k, (buildIndex records).byRecordId k = some u) ∨
       (∃ k, (buildIndex records).byName k = some u)) := by
  have htr := buildIndex_truthy records
  have heq := resolveMembership_eq (buildIndex records) htr raw
  have hmem : ∀ u, u ∈ resolveMembership (buildIndex records) raw ↔
      u ∈ (explodeHubCoordinators raw).filterMap (resolveToken (buildIndex records)) := by
    intro u
    rw [heq, mem_dedupFirstAux]
    simp
  refine ⟨?_, ?_, ?_, ?_⟩
  · intro u
    rw [hmem u, List.mem_filterMap]
  · rw [heq]
    exact nodup_dedupFirstAux _ _
  · rw [heq]
    refine pairwiseImpMem ?_ (pairwise_dedupFirstAux _ [])
    intro u v hu hv hlt
    have hu2 := ((mem_dedupFirstAux _ [] u).mp hu).1
    have hv2 := ((mem_dedupFirstAux _ [] v).mp hv).1
    exact (firstOccIdx_filterMap_lt_iff _ _ u v hu2 hv2).mp hlt
  · intro u hu
    rcases List.mem_filterMap.mp ((hmem u).mp hu) with ⟨t, _, hgt⟩
    exact resolveToken_is_lookup _ t u hgt

/-- C2: the hub loop never turns a per-hub update failure into a run failure:
it always returns success, and the outcome of every hub (including every hub
after a failed one) is exactly the per-hub description of that hub alone, so
each later hub is still attempted and can still be updated. -/
theorem C2_failure_isolation (idx : CoordIndex) (ok : JVal → List String → Bool)
    (hubs : List Hub) :
    runHubs idx ok hubs =
      Except.ok (hubs.map (fun h => (processHub idx ok h).1),
                 (hubs.map (fun h => (processHub idx ok h).2)).flatten) :=
  runHubs_eq idx ok hubs

/-- C3: on the two given coordinator records and the given hub fields, the
resolved membership is exactly ["U111", "U222"] in that order. -/
theorem C3_end_to_end_membership :
    resolveMembership
      (buildIndex
        [{ id := "rec1", fields := [("Slack ID", JVal.str "<@U111>"), ("Name", JVal.str "Suzi")] },
         { id := "rec2", fields := [("Slack ID", JVal.str "U222"), ("Name", JVal.str "Anna")] }])
      (getField [("Group ID", JVal.str "S0AGRP"), ("Coordinators", JVal.str "Suzi, Anna")]
        "Coordinators")
      = ["U111", "U222"] := by
  decide

/-- C4: a hub whose resolved membership is empty never has an update call
issued for it, and a run over hubs that all resolve empty issues no update
call at all. -/
theorem C4_empty_membership_no_call (idx : CoordIndex) (ok : JVal → List String → Bool) :
    (∀ h : Hub, resolveMembership idx (getField h.fields "Coordinators") = [] →
       (processHub idx ok h).2 = []) ∧
    (∀ hubs : List Hub,
       (∀ h ∈ hubs, resolveMembership idx (getField h.fields "Coordinators") = []) →
       ∃ outs, runHubs idx ok hubs = Except.ok (outs, [])) := by
  have hone : ∀ h : Hub, resolveMembership idx (getField h.fields "Coordinators") = [] →
      (processHub idx ok h).2 = [] := by
    intro h hm
    by_cases h1 : isFalsy (getField h.fields "Group ID") = true
    · simp [processHub, h1]
    · simp [processHub, h1, hm]
  refine ⟨hone, ?_⟩
  intro hubs hall
  refine ⟨hubs.map (fun h => (processHub idx ok h).1), ?_⟩
  rw [runHubs_eq]
  have hflat : (hubs.map (fun h => (processHub idx ok h).2)).flatten = [] := by
    rw [List.flatten_eq_nil_iff]
    intro xs hxs
    rcases List.mem_map.mp hxs with ⟨h, hh, hrfl⟩
    rw [← hrfl]
    exact hone h (hall h hh)
  rw [hflat]

/-- C4 witness: a concrete hub whose coordinators field is absent resolves to
the empty membership and produces no update call. -/
theorem C4_empty_membership_no_call_witness :
    (processHub emptyIndex (fun _ _ => true)
       { id := "h1", fields := [("Group ID", JVal.str "S0AGRP")] }).2 = [] :=
  (C4_empty_membership_no_call emptyIndex (fun _ _ => true)).1
    { id := "h1", fields := [("Group ID", JVal.str "S0AGRP")] } (by decide)

/-- C5: on a list of strings the exploder returns the in-order concatenation
of the per-element split results (split on runs of comma, semicolon, pipe or
newline, pieces trimmed, empty pieces dropped), and in particular the two
example inputs of the specification produce the stated outputs. -/
theorem C5_exploder_on_string_lists :
    (∀ xs : List String,
       explodeHubCoordinators (JVal.arr (xs.map JVal.str)) = (xs.map splitTokens).flatten) ∧
    explodeHubCoordinators (JVal.arr [JVal.str "Suzi, Anna", JVal.str "Emily"])
      = ["Suzi", "Anna", "Emily"] ∧
    explodeHubCoordinators (JVal.arr [JVal.str "rec123", JVal.str "rec456"])
      = ["rec123", "rec456"] := by
  refine ⟨?_, by decide, by decide⟩
  intro xs
  simp only [explodeHubCoordinators, List.map_map]
  rfl

/-- C6 counterexample: a structured value with neither a record-reference id
nor any name-like string attribute is NOT coerced to its string
representation; the exploder yields no tokens for it, while the claimed
string coercion would yield the token "[object Object]". -/
theorem C6_object_not_coerced_cex :
    explodeHubCoordinators (JVal.obj [("foo", JVal.str "bar")]) = [] ∧
    splitTokens (jsToString (JVal.obj [("foo", JVal.str "bar")])) = ["[object Object]"] ∧
    explodeHubCoordinators (JVal.obj [("foo", JVal.str "bar")]) ≠
      splitTokens (jsToString (JVal.obj [("foo", JVal.str "bar")])) := by
  refine ⟨by decide, by decide, by decide⟩

/-- C6 amended: only primitive non-string values (numbers, booleans) reach
the String() fallback and are split like strings; a structured value with no
record-reference id and no name-like string attribute yields no tokens. -/
theorem C6_primitive_coercion_amended :
    (∀ n : Int, explodeHubCoordinators (JVal.num n) = splitTokens (jsToString (JVal.num n))) ∧
    (∀ b : Bool, explodeHubCoordinators (JVal.bool b) = splitTokens (jsToString (JVal.bool b))) ∧
    (∀ fs, objRecId fs = none → objNameStr fs = none →
       explodeHubCoordinators (JVal.obj fs) = []) := by
  refine ⟨fun n => rfl, fun b => rfl, ?_⟩
  intro fs h1 h2
  simp [explodeHubCoordinators, handleItem, h1, h2]

/-- C6 amended witness at concrete inputs. -/
theorem C6_primitive_coercion_amended_witness :
    explodeHubCoordinators (JVal.num 42) = splitTokens (jsToString (JVal.num 42)) ∧
    explodeHubCoordinators (JVal.obj [("foo", JVal.num 1)]) = [] :=
  ⟨C6_primitive_coercion_amended.1 42,
   C6_primitive_coercion_amended.2.2 [("foo", JVal.num 1)] (by decide) (by decide)⟩

/-- C7: a valid external id wrapped in decoration or embedded in a longer
string — the surrounding text containing no U or W before the id and no
[A-Z0-9] character right after it — is extracted exactly, with the decoration
stripped. -/
theorem C7_normalizer_extracts_id (pre u post : String)
    (hu : validId u = true)
    (hpre : ∀ c ∈ pre.data, c ≠ 'U' ∧ c ≠ 'W')
    (hpost : ∀ c ∈ post.data.take 1, isUpperAlnum c = false) :
    normalizeSlackId (JVal.str (pre ++ u ++ post)) = some u := by
  have hy : ∀ c, post.data.head? = some c → isUpperAlnum c = false := by
    intro c hc
    cases hpd : post.data with
    | nil => rw [hpd] at hc; cases hc
    | cons d ds =>
      rw [hpd] at hc
      cases hc
      apply hpost
      rw [hpd]
      simp
  have hdata : (pre ++ u ++ post).data = pre.data ++ (u.data ++ post.data) := by
    rw [String.data_append, String.data_append, List.append_assoc]
  have hns : normalizeSlackId (JVal.str (pre ++ u ++ post)) =
      (findIdMatch (pre ++ u ++ post).data).map String.mk := rfl
  rw [hns, hdata, findIdMatch_append_skip pre.data hpre]
  cases hud : u.data with
  | nil => simp [validId, hud] at hu
  | cons c rest =>
    have hu2 := hu
    simp only [validId, hud, Bool.and_eq_true, Bool.or_eq_true, decide_eq_true_eq] at hu2
    obtain ⟨⟨hcw, hlen⟩, hall⟩ := hu2
    have hcw2 : (c = 'U' || c = 'W') = true := by
      rcases hcw with h | h
      · simp [h]
      · simp [h]
    have htw : (rest ++ post.data).takeWhile isUpperAlnum = rest :=
      takeWhile_append_of_all isUpperAlnum rest post.data hall hy
    have hm : matchIdAt (c :: (rest ++ post.data)) = some (c :: rest) := by
      simp [matchIdAt, htw, hcw2, hlen]
    have hfinal : findIdMatch (c :: (rest ++ post.data)) = some (c :: rest) := by
      rw [findIdMatch, hm]
    rw [List.cons_append, hfinal, ← hud]
    rfl

/-- C7 witness: the decorated id <@U111> is normalized to exactly U111. -/
theorem C7_normalizer_extracts_id_witness :
    normalizeSlackId (JVal.str ("<@" ++ "U111" ++ ">")) = some "U111" :=
  C7_normalizer_extracts_id "<@" "U111" ">" (by decide) (by decide) (by decide)

/-- C8: per-record behavior of the index builder.  A record whose Slack id
does not normalize only increments the invalid counter and touches neither
map; otherwise the counter is unchanged, the id is registered under the
record id (other keys untouched), under the truthy normalized name it is
registered too (overwriting an earlier holder of that name, other names
untouched), and with no truthy name the name map is unchanged; finally,
appending a record to the input processes it last, which is what makes later
records overwrite earlier ones. -/
theorem C8_index_builder_per_record (acc : CoordIndex) (c : CoordRecord) :
    (normalizeSlackId (getField c.fields "Slack ID") = none →
       (buildIndexStep acc c).invalidSlackIdCount = acc.invalidSlackIdCount + 1 ∧
       (buildIndexStep acc c).byRecordId = acc.byRecordId ∧
       (buildIndexStep acc c).byName = acc.byName) ∧
    (∀ u, normalizeSlackId (getField c.fields "Slack ID") = some u →
       (buildIndexStep acc c).invalidSlackIdCount = acc.invalidSlackIdCount ∧
       (buildIndexStep acc c).byRecordId c.id = some u ∧
       (∀ k, k ≠ c.id → (buildIndexStep acc c).byRecordId k = acc.byRecordId k) ∧
       (∀ n, normalizeName (getField c.fields "Name") = some n → jsTruthyStr n = true →
          (buildIndexStep acc c).byName n = some u ∧
          ∀ m, m ≠ n → (buildIndexStep acc c).byName m = acc.byName m) ∧
       ((normalizeName (getField c.fields "Name") = none ∨
         (∃ nm, normalizeName (getField c.fields "Name") = some nm ∧ jsTruthyStr nm = false)) →
          (buildIndexStep acc c).byName = acc.byName)) ∧
    (∀ recs : List CoordRecord, buildIndex (recs ++ [c]) = buildIndexStep (buildIndex recs) c) := by
  refine ⟨?_, ?_, ?_⟩
  · intro hs
    refine ⟨?_, ?_, ?_⟩ <;> simp [buildIndexStep, hs]
  · intro u hs
    refine ⟨?_, ?_, ?_, ?_, ?_⟩
    · cases hn : normalizeName (getField c.fields "Name") with
      | none => simp [buildIndexStep, hs, hn]
      | some name =>
        by_cases htr : jsTruthyStr name = true
        · simp [buildIndexStep, hs, hn, htr]
        · simp [buildIndexStep, hs, hn, htr]
    · cases hn : normalizeName (getField c.fields "Name") with
      | none => simp [buildIndexStep, hs, hn]
      | some name =>
        by_cases htr : jsTruthyStr name = true
        · simp [buildIndexStep, hs, hn, htr]
        · simp [buildIndexStep, hs, hn, htr]
    · intro k hk
      cases hn : normalizeName (getField c.fields "Name") with
      | none => simp [buildIndexStep, hs, hn, hk]
      | some name =>
        by_cases htr : jsTruthyStr name = true
        · simp [buildIndexStep, hs, hn, htr, hk]
        · simp [buildIndexStep, hs, hn, htr, hk]
    · intro n hn htr
      refine ⟨?_, ?_⟩
      · simp [buildIndexStep, hs, hn, htr]
      · intro m hm
        simp [buildIndexStep, hs, hn, htr, hm]
    · intro hcase
      rcases hcase with hn | ⟨nm, hn, hfalse⟩
      · simp [buildIndexStep, hs, hn]
      · simp [buildIndexStep, hs, hn, hfalse]
  · intro recs
    unfold buildIndex
    rw [List.foldl_append]
    rfl

/-- C8 witness: a record with a null Slack id only bumps the counter; a
record with id <@U111> and name " Suzi " registers U111 under rec1 and under
the canonical name suzi. -/
theorem C8_index_builder_per_record_witness :
    (buildIndexStep emptyIndex { id := "recX", fields := [("Slack ID", JVal.null)] }).invalidSlackIdCount
      = emptyIndex.invalidSlackIdCount + 1 ∧
    (buildIndexStep emptyIndex
      { id := "rec1", fields := [("Slack ID", JVal.str "<@U111>"), ("Name", JVal.str " Suzi ")] }).byRecordId
      "rec1" = some "U111" ∧
    (buildIndexStep emptyIndex
      { id := "rec1", fields := [("Slack ID", JVal.str "<@U111>"), ("Name", JVal.str " Suzi ")] }).byName
      "suzi" = some "U111" := by
  refine ⟨?_, ?_, ?_⟩
  · exact ((C8_index_builder_per_record emptyIndex
      { id := "recX", fields := [("Slack ID", JVal.null)] }).1 (by decide)).1
  · exact (((C8_index_builder_per_record emptyIndex
      { id := "rec1", fields := [("Slack ID", JVal.str "<@U111>"), ("Name", JVal.str " Suzi ")] }).2.1
      "U111" (by decide)).2.1)
  · exact ((((C8_index_builder_per_record emptyIndex
      { id := "rec1", fields := [("Slack ID", JVal.str "<@U111>"), ("Name", JVal.str " Suzi ")] }).2.1
      "U111" (by decide)).2.2.2.1 "suzi" (by decide) (by decide)).1)

/-- C9: the identifier normalizer treats null, undefined and plain (neither
string nor array) objects as absent, reporting no id, without failing. -/
theorem C9_normalizer_absent_inputs :
    normalizeSlackId JVal.null = none ∧
    normalizeSlackId JVal.undef = none ∧
    ∀ fs, normalizeSlackId (JVal.obj fs) = none := by
  refine ⟨rfl, rfl, ?_⟩
  intro fs
  have h : normalizeSlackId (JVal.obj fs) =
      (findIdMatch ("[object Object]").data).map String.mk := rfl
  rw [h]
  decide

/-- C10 counterexample: with two records sharing the record id recA, the name
map still holds U111 (registered under suzi by the first record), but after
the second record overwrites byRecordId at recA, no key of the record-id map
stores U111 any more. -/
theorem C10_name_value_not_reachable_cex :
    (buildIndex
      [{ id := "recA", fields := [("Slack ID", JVal.str "U111"), ("Name", JVal.str "Suzi")] },
       { id := "recA", fields := [("Slack ID", JVal.str "U222"), ("Name", JVal.str "Anna")] }]).byName
      "suzi" = some "U111" ∧
    ∀ k,
      (buildIndex
        [{ id := "recA", fields := [("Slack ID", JVal.str "U111"), ("Name", JVal.str "Suzi")] },
         { id := "recA", fields := [("Slack ID", JVal.str "U222"), ("Name", JVal.str "Anna")] }]).byRecordId
        k ≠ some "U111" := by
  constructor
  · decide
  · intro k
    have hfn :
        (buildIndex
          [{ id := "recA", fields := [("Slack ID", JVal.str "U111"), ("Name", JVal.str "Suzi")] },
           { id := "recA", fields := [("Slack ID", JVal.str "U222"), ("Name", JVal.str "Anna")] }]).byRecordId
          = fun q => if q = "recA" then some "U222"
                     else if q = "recA" then some "U111" else none := rfl
    rw [hfn]
    by_cases hk : k = "recA"
    · rw [hk]
      decide
    · simp [hk]

/-- C10 amended: when the record ids are pairwise distinct (as Airtable
guarantees for real tables), every value of the by-canonical-name map is also
a value of the by-record-id map. -/
theorem C10_amended_name_values_in_record_map (records : List CoordRecord)
    (hids : (records.map CoordRecord.id).Nodup) :
    ∀ n u, (buildIndex records).byName n = some u →
      ∃ k, (buildIndex records).byRecordId k = some u := by
  intro n u h
  unfold buildIndex at h ⊢
  exact buildIndexAux_name_sub records emptyIndex
    (fun n2 u2 h2 => by simp [emptyIndex] at h2)
    (fun c _ => rfl)
    hids n u h

/-- C10 amended witness: with distinct record ids the id U111 reachable via
the name suzi is also reachable by record id. -/
theorem C10_amended_witness :
    ∃ k,
      (buildIndex
        [{ id := "rec1", fields := [("Slack ID", JVal.str "U111"), ("Name", JVal.str "Suzi")] },
         { id := "rec2", fields := [("Slack ID", JVal.str "U222"), ("Name", JVal.str "Anna")] }]).byRecordId
        k = some "U111" :=
  C10_amended_name_values_in_record_map _ (by decide) "suzi" "U111" (by decide)

/-- C1 witness: on concrete records and a mixed reference/name hub field,
U111 is a member (the token rec1 resolves to it) and is a stored index value. -/
theorem C1_resolved_membership_invariant_witness :
    "U111" ∈ resolveMembership
      (buildIndex
        [{ id := "rec1", fields := [("Slack ID", JVal.str "<@U111>"), ("Name", JVal.str "Suzi")] },
         { id := "rec2", fields := [("Slack ID", JVal.str "U222"), ("Name", JVal.str "Anna")] }])
      (JVal.arr [JVal.str "rec1", JVal.str "Anna"]) ∧
    ((∃ k, (buildIndex
        [{ id := "rec1", fields := [("Slack ID", JVal.str "<@U111>"), ("Name", JVal.str "Suzi")] },
         { id := "rec2", fields := [("Slack ID", JVal.str "U222"), ("Name", JVal.str "Anna")] }]).byRecordId
        k = some "U111") ∨
     (∃ k, (buildIndex
        [{ id := "rec1", fields := [("Slack ID", JVal.str "<@U111>"), ("Name", JVal.str "Suzi")] },
         { id := "rec2", fields := [("Slack ID", JVal.str "U222"), ("Name", JVal.str "Anna")] }]).byName
        k = some "U111")) := by
  have h := C1_resolved_membership_invariant
    [{ id := "rec1", fields := [("Slack ID", JVal.str "<@U111>"), ("Name", JVal.str "Suzi")] },
     { id := "rec2", fields := [("Slack ID", JVal.str "U222"), ("Name", JVal.str "Anna")] }]
    (JVal.arr [JVal.str "rec1", JVal.str "Anna"])
  have hmem := (h.1 "U111").mpr ⟨"rec1", by decide, by decide⟩
  exact ⟨hmem, h.2.2.2 "U111" hmem⟩
